import Mathlib

set_option maxRecDepth 4000

/-! A verification development for `src/PDA.c`, a backtracking simulation of a
pushdown automaton that decides membership in the language of a fixed
context-free grammar.  The C stack (`struct stack`: a `char` array plus a `top`
index, passed by value) is embedded as a `List Char` whose head is the topmost
element; the C `const char *word` is the list of remaining input characters.
Because the search need not terminate for arbitrary grammars, the engine is
fuel-indexed and returns `Option Bool`: `none` means the fuel ran out, and
`some b` is the answer the C function computes. -/

/-- A grammar maps a nonterminal character to the ordered list of its
production right-hand sides (`typedef const rule * grammar` in the source).
A missing table entry (`NULL`) or an exhausted rule array both become the
empty list, exactly the two ways `for_each_production` (src/PDA.c:42-43)
stops iterating. -/
abbrev grammar := Char → List (List Char)

/-- Embedding of the C `isupper` test used at src/PDA.c:122: true exactly for
the ASCII uppercase letters `'A'`..`'Z'`. -/
def isupper (c : Char) : Bool := 'A' ≤ c && c ≤ 'Z'

/-- The production loop of `run_pda` (src/PDA.c:126-161, built on
`for_each_production`): try each rule in declaration order; the first
recursive attempt that returns true short-circuits the loop; after an attempt
returns false the next rule is tried; when the rules are exhausted the loop
falls through and the answer is false.  An attempt that runs out of fuel
(`none`) makes the whole answer `none`, since the C program would still be
running inside that attempt. -/
def try_productions (att : List Char → Option Bool) : List (List Char) → Option Bool
  | [] => some false
  | r :: rs =>
    match att r with
    | some true => some true
    | some false => try_productions att rs
    | none => none

/-- Embedding of `run_pda` (src/PDA.c:91-188).  An empty stack accepts exactly
the empty word (lines 110-111); otherwise the top symbol is popped (line 119);
an uppercase top symbol is expanded by trying every production (lines 122-162),
where the push loop at lines 136-150 lays the rule out so that its first
character becomes the new top, i.e. the branch stack is `r ++ s`; a terminal
top symbol must match the first input character, which is then consumed
(lines 164-187).  No capacity check is performed on a push, matching the
source (see the comment at src/PDA.c:45-48). -/
def run_pda (g : grammar) : Nat → List Char → List Char → Option Bool
  | 0, _, _ => none
  | fuel + 1, word, stack =>
    match stack with
    | [] => some (decide (word = []))
    | t :: s =>
      if isupper t then
        try_productions (fun r => run_pda g fuel word (r ++ s)) (g t)
      else
        match word with
        | [] => some false
        | x :: w => if x = t then run_pda g fuel w s else some false

/-- The built-in grammar `wtf` (src/PDA.c:54-58):
`S -> AB`, `A -> aA | a`, `B -> bBc | bc`, with the rules of each nonterminal
in their declaration order. -/
def wtf : grammar := fun c =>
  if c = 'S' then [['A', 'B']]
  else if c = 'A' then [['a', 'A'], ['a']]
  else if c = 'B' then [['b', 'B', 'c'], ['b', 'c']]
  else []

/-- Capacity-checked engine, written from the specification's words (spec §4.2:
"if pushing a production's symbols would exceed the stack's fixed capacity,
this branch fails (returns false)").  The stack capacity is the 1024 slots of
`struct stack` (src/PDA.c:49-52); after the pop the stack holds `s.length`
symbols, so the push of rule `r` is allowed only when
`s.length + r.length ≤ 1024`.  This definition exists to be compared with
`run_pda`, which performs no such check. -/
def run_pda_checked (g : grammar) : Nat → List Char → List Char → Option Bool
  | 0, _, _ => none
  | fuel + 1, word, stack =>
    match stack with
    | [] => some (decide (word = []))
    | t :: s =>
      if isupper t then
        try_productions
          (fun r =>
            if s.length + r.length ≤ 1024 then run_pda_checked g fuel word (r ++ s)
            else some false)
          (g t)
      else
        match word with
        | [] => some false
        | x :: w => if x = t then run_pda_checked g fuel w s else some false

/-- A one-production grammar `S -> a^n`, used to exercise expansions of
arbitrary size (the engine is parametric in the grammar). -/
def gBig (n : Nat) : grammar := fun c => if c = 'S' then [List.replicate n 'a'] else []

/-- The call `run_pda(g, word, stack)` as seen from the caller's frame:
`struct stack` is passed by value (src/PDA.c:91), so the callee operates on a
copy and the caller keeps its own stack object.  The pair collects what the
caller observes after the call: the result and its own stack variable. -/
def run_pda_call (g : grammar) (fuel : Nat) (word s : List Char) : Option Bool × List Char :=
  (run_pda g fuel word s, s)

/-- Recognizer for the words derivable from stack `'B' :: c^j`:
exactly the words `b^m c^(m+j)` with `m ≥ 1`. -/
def bMatch : List Char → Nat → Bool
  | [], _ => false
  | x :: w, j => decide (x = 'b') && (bMatch w (j + 1) || decide (w = List.replicate (j + 1) 'c'))

/-- Recognizer for the words derivable from stack `['A', 'B']` (equivalently,
accepted from the start stack `['S']`): exactly `a^n b^m c^m`, `n, m ≥ 1`. -/
def aMatch : List Char → Bool
  | [] => false
  | x :: w => decide (x = 'a') && (aMatch w || bMatch w 0)

/-- Embedding of `main` (src/PDA.c:190-214) as the function from the
command-line arguments (excluding the program name, so C's `argc != 2` is
`args.length ≠ 1`) to the process exit code: `-1` for a usage error, checked
before anything else; `EXIT_SUCCESS = 0` when the word is accepted;
`EXIT_FAILURE = 1` when it is rejected.  The C call has no fuel; the fuel
`3 * w.length + 7` provably suffices for the built-in grammar (see
`run_pda_wtf_terminates`), so the `none` fallthrough in the match is never
taken. -/
def main_ret (args : List (List Char)) : Int :=
  match args with
  | [w] =>
    match run_pda wtf (3 * w.length + 7) w ['S'] with
    | some true => 0
    | _ => 1
  | _ => -1

/-! Unfolding lemmas for the engine. -/

theorem run_pda_zero (g : grammar) (w s : List Char) : run_pda g 0 w s = none := rfl

theorem run_pda_nil (g : grammar) (f : Nat) (w : List Char) :
    run_pda g (f + 1) w [] = some (decide (w = [])) := rfl

theorem run_pda_nonterm (g : grammar) (f : Nat) (w : List Char) (t : Char) (s : List Char)
    (ht : isupper t = true) :
    run_pda g (f + 1) w (t :: s) =
      try_productions (fun r => run_pda g f w (r ++ s)) (g t) := by
  simp [run_pda, ht]

theorem run_pda_term_nil (g : grammar) (f : Nat) (t : Char) (s : List Char)
    (ht : isupper t = false) :
    run_pda g (f + 1) [] (t :: s) = some false := by
  simp [run_pda, ht]

theorem run_pda_term_cons (g : grammar) (f : Nat) (x : Char) (w : List Char) (t : Char)
    (s : List Char) (ht : isupper t = false) :
    run_pda g (f + 1) (x :: w) (t :: s) =
      if x = t then run_pda g f w s else some false := by
  simp [run_pda, ht]

theorem try_productions_one (att : List Char → Option Bool) (r : List Char) (b : Bool)
    (h : att r = some b) : try_productions att [r] = some b := by
  cases b <;> simp [try_productions, h]

theorem try_productions_two (att : List Char → Option Bool) (r1 r2 : List Char) (b1 b2 : Bool)
    (h1 : att r1 = some b1) (h2 : att r2 = some b2) :
    try_productions att [r1, r2] = some (b1 || b2) := by
  cases b1 <;> cases b2 <;> simp [try_productions, h1, h2]

theorem try_productions_all_false (att : List Char → Option Bool) :
    ∀ rs : List (List Char), (∀ r ∈ rs, att r = some false) →
      try_productions att rs = some false := by
  intro rs
  induction rs with
  | nil => intro _; rfl
  | cons r rs ih =>
    intro h
    have hr : att r = some false := h r (by simp)
    simp only [try_productions, hr]
    exact ih fun r2 h2 => h r2 (by simp [h2])

theorem try_productions_append (att : List Char → Option Bool) :
    ∀ rs1 rs2 : List (List Char),
      try_productions att (rs1 ++ rs2) =
        match try_productions att rs1 with
        | some false => try_productions att rs2
        | x => x := by
  intro rs1 rs2
  induction rs1 with
  | nil => simp [try_productions]
  | cons r rs ih =>
    simp only [List.cons_append, try_productions]
    cases hr : att r with
    | none => rfl
    | some b => cases b <;> simp [ih]

theorem try_productions_mono (att att2 : List Char → Option Bool)
    (h : ∀ r b, att r = some b → att2 r = some b) :
    ∀ (rs : List (List Char)) (b : Bool),
      try_productions att rs = some b → try_productions att2 rs = some b := by
  intro rs
  induction rs with
  | nil => intro b hb; exact hb
  | cons r rs ih =>
    intro b hb
    simp only [try_productions] at hb ⊢
    cases hr : att r with
    | none => rw [hr] at hb; cases hb
    | some br =>
      rw [hr] at hb
      rw [h r br hr]
      cases br with
      | true => exact hb
      | false => exact ih b hb

/-- More fuel never changes an answer that was already reached. -/
theorem run_pda_mono (g : grammar) :
    ∀ f1 f2 : Nat, f1 ≤ f2 → ∀ (w s : List Char) (b : Bool),
      run_pda g f1 w s = some b → run_pda g f2 w s = some b := by
  intro f1
  induction f1 with
  | zero => intro f2 _ w s b hb; rw [run_pda_zero] at hb; cases hb
  | succ f ih =>
    intro f2 hle w s b hb
    obtain ⟨f2p, rfl⟩ : ∃ k, f2 = k + 1 := ⟨f2 - 1, by omega⟩
    have hle2 : f ≤ f2p := by omega
    cases s with
    | nil => rw [run_pda_nil] at hb ⊢; exact hb
    | cons t s =>
      cases ht : isupper t with
      | true =>
        rw [run_pda_nonterm g f w t s ht] at hb
        rw [run_pda_nonterm g f2p w t s ht]
        exact try_productions_mono _ _ (fun r b2 hr => ih f2p hle2 w (r ++ s) b2 hr) _ b hb
      | false =>
        cases w with
        | nil =>
          rw [run_pda_term_nil g f t s ht] at hb
          rw [run_pda_term_nil g f2p t s ht]
          exact hb
        | cons x w =>
          rw [run_pda_term_cons g f x w t s ht] at hb
          rw [run_pda_term_cons g f2p x w t s ht]
          by_cases hx : x = t
          · rw [if_pos hx] at hb ⊢; exact ih f2p hle2 w s b hb
          · rw [if_neg hx] at hb ⊢; exact hb

/-- Any two evaluations that produce an answer produce the same answer. -/
theorem run_pda_det (g : grammar) {f1 f2 : Nat} {w s : List Char} {b1 b2 : Bool}
    (h1 : run_pda g f1 w s = some b1) (h2 : run_pda g f2 w s = some b2) : b1 = b2 := by
  rcases Nat.le_total f1 f2 with h | h
  · have h3 := run_pda_mono g f1 f2 h w s b1 h1
    rw [h3] at h2
    exact Option.some.inj h2
  · have h3 := run_pda_mono g f2 f1 h w s b2 h2
    rw [h3] at h1
    exact (Option.some.inj h1).symm

/-- A stack consisting only of terminal symbols accepts exactly itself:
the run compares it character by character with the word. -/
theorem run_pda_terms (g : grammar) :
    ∀ u : List Char, (∀ c ∈ u, isupper c = false) →
      ∀ (f : Nat) (w : List Char), u.length + 1 ≤ f →
        run_pda g f w u = some (decide (w = u)) := by
  intro u
  induction u with
  | nil =>
    intro _ f w hf
    obtain ⟨fp, rfl⟩ : ∃ k, f = k + 1 := ⟨f - 1, by omega⟩
    rw [run_pda_nil]
  | cons t u ih =>
    intro hall f w hf
    obtain ⟨fp, rfl⟩ : ∃ k, f = k + 1 := ⟨f - 1, by omega⟩
    have ht : isupper t = false := hall t (by simp)
    cases w with
    | nil =>
      rw [run_pda_term_nil g fp t u ht]
      simp
    | cons x w =>
      rw [run_pda_term_cons g fp x w t u ht]
      by_cases hx : x = t
      · subst hx
        rw [if_pos rfl]
        rw [ih (fun c hc => hall c (by simp [hc])) fp w
          (by simp only [List.length_cons] at hf; omega)]
        simp
      · rw [if_neg hx]
        simp [hx]

/-- Evaluation of the search below a `'B'` on top of `j` pending `'c'`
terminals, with an explicit fuel bound linear in the word length. -/
theorem run_pda_B_stack :
    ∀ (w : List Char) (j f : Nat), 3 * w.length + j + 5 ≤ f →
      run_pda wtf f w ('B' :: List.replicate j 'c') = some (bMatch w j) := by
  intro w
  induction w with
  | nil =>
    intro j f hf
    obtain ⟨fa, rfl⟩ : ∃ k, f = k + 1 := ⟨f - 1, by omega⟩
    obtain ⟨fb, rfl⟩ : ∃ k, fa = k + 1 := ⟨fa - 1, by omega⟩
    rw [run_pda_nonterm wtf (fb + 1) [] 'B' (List.replicate j 'c') (by decide)]
    have hB : wtf 'B' = [['b', 'B', 'c'], ['b', 'c']] := by decide
    rw [hB]
    have h1 : run_pda wtf (fb + 1) [] (['b', 'B', 'c'] ++ List.replicate j 'c') = some false := by
      rw [List.cons_append]
      exact run_pda_term_nil wtf fb 'b' _ (by decide)
    have h2 : run_pda wtf (fb + 1) [] (['b', 'c'] ++ List.replicate j 'c') = some false := by
      rw [List.cons_append]
      exact run_pda_term_nil wtf fb 'b' _ (by decide)
    rw [try_productions_two (fun r => run_pda wtf (fb + 1) [] (r ++ List.replicate j 'c'))
      ['b', 'B', 'c'] ['b', 'c'] false false h1 h2]
    simp [bMatch]
  | cons x w ih =>
    intro j f hf
    simp only [List.length_cons] at hf
    obtain ⟨fa, rfl⟩ : ∃ k, f = k + 1 := ⟨f - 1, by omega⟩
    obtain ⟨fb, rfl⟩ : ∃ k, fa = k + 1 := ⟨fa - 1, by omega⟩
    rw [run_pda_nonterm wtf (fb + 1) (x :: w) 'B' (List.replicate j 'c') (by decide)]
    have hB : wtf 'B' = [['b', 'B', 'c'], ['b', 'c']] := by decide
    rw [hB]
    by_cases hx : x = 'b'
    · subst hx
      have h1 : run_pda wtf (fb + 1) ('b' :: w) (['b', 'B', 'c'] ++ List.replicate j 'c') =
          some (bMatch w (j + 1)) := by
        rw [List.cons_append, List.cons_append, List.cons_append, List.nil_append,
          run_pda_term_cons wtf fb 'b' w 'b' _ (by decide), if_pos rfl,
          ← List.replicate_succ]
        exact ih (j + 1) fb (by omega)
      have h2 : run_pda wtf (fb + 1) ('b' :: w) (['b', 'c'] ++ List.replicate j 'c') =
          some (decide (w = List.replicate (j + 1) 'c')) := by
        rw [List.cons_append, List.cons_append, List.nil_append,
          run_pda_term_cons wtf fb 'b' w 'b' ('c' :: List.replicate j 'c') (by decide),
          if_pos rfl]
        have hterm : ∀ c ∈ ('c' :: List.replicate j 'c' : List Char), isupper c = false := by
          intro c hc
          simp only [List.mem_cons, List.mem_replicate] at hc
          rcases hc with rfl | ⟨-, rfl⟩ <;> decide
        rw [run_pda_terms wtf ('c' :: List.replicate j 'c') hterm fb w
          (by simp only [List.length_cons, List.length_replicate]; omega)]
        rw [← List.replicate_succ]
      rw [try_productions_two
        (fun r => run_pda wtf (fb + 1) ('b' :: w) (r ++ List.replicate j 'c'))
        ['b', 'B', 'c'] ['b', 'c'] (bMatch w (j + 1))
        (decide (w = List.replicate (j + 1) 'c')) h1 h2]
      simp [bMatch]
    · have h1 : run_pda wtf (fb + 1) (x :: w) (['b', 'B', 'c'] ++ List.replicate j 'c') =
          some false := by
        rw [List.cons_append, run_pda_term_cons wtf fb x w 'b' _ (by decide), if_neg hx]
      have h2 : run_pda wtf (fb + 1) (x :: w) (['b', 'c'] ++ List.replicate j 'c') =
          some false := by
        rw [List.cons_append, run_pda_term_cons wtf fb x w 'b' _ (by decide), if_neg hx]
      rw [try_productions_two
        (fun r => run_pda wtf (fb + 1) (x :: w) (r ++ List.replicate j 'c'))
        ['b', 'B', 'c'] ['b', 'c'] false false h1 h2]
      simp [bMatch, hx]

/-- Evaluation of the search from the stack `['A', 'B']`, with an explicit
fuel bound linear in the word length. -/
theorem run_pda_A_stack :
    ∀ (w : List Char) (f : Nat), 3 * w.length + 6 ≤ f →
      run_pda wtf f w ['A', 'B'] = some (aMatch w) := by
  intro w
  induction w with
  | nil =>
    intro f hf
    obtain ⟨fa, rfl⟩ : ∃ k, f = k + 1 := ⟨f - 1, by omega⟩
    obtain ⟨fb, rfl⟩ : ∃ k, fa = k + 1 := ⟨fa - 1, by omega⟩
    rw [show (['A', 'B'] : List Char) = 'A' :: ['B'] from rfl,
      run_pda_nonterm wtf (fb + 1) [] 'A' ['B'] (by decide)]
    have hA : wtf 'A' = [['a', 'A'], ['a']] := by decide
    rw [hA]
    have h1 : run_pda wtf (fb + 1) [] (['a', 'A'] ++ ['B']) = some false := by
      rw [List.cons_append]
      exact run_pda_term_nil wtf fb 'a' _ (by decide)
    have h2 : run_pda wtf (fb + 1) [] (['a'] ++ ['B']) = some false := by
      rw [List.cons_append]
      exact run_pda_term_nil wtf fb 'a' _ (by decide)
    rw [try_productions_two (fun r => run_pda wtf (fb + 1) [] (r ++ ['B']))
      ['a', 'A'] ['a'] false false h1 h2]
    simp [aMatch]
  | cons x w ih =>
    intro f hf
    simp only [List.length_cons] at hf
    obtain ⟨fa, rfl⟩ : ∃ k, f = k + 1 := ⟨f - 1, by omega⟩
    obtain ⟨fb, rfl⟩ : ∃ k, fa = k + 1 := ⟨fa - 1, by omega⟩
    rw [show (['A', 'B'] : List Char) = 'A' :: ['B'] from rfl,
      run_pda_nonterm wtf (fb + 1) (x :: w) 'A' ['B'] (by decide)]
    have hA : wtf 'A' = [['a', 'A'], ['a']] := by decide
    rw [hA]
    by_cases hx : x = 'a'
    · subst hx
      have h1 : run_pda wtf (fb + 1) ('a' :: w) (['a', 'A'] ++ ['B']) =
          some (aMatch w) := by
        rw [List.cons_append, List.cons_append, List.nil_append,
          run_pda_term_cons wtf fb 'a' w 'a' _ (by decide), if_pos rfl]
        exact ih fb (by omega)
      have h2 : run_pda wtf (fb + 1) ('a' :: w) (['a'] ++ ['B']) =
          some (bMatch w 0) := by
        rw [List.cons_append, List.nil_append,
          run_pda_term_cons wtf fb 'a' w 'a' _ (by decide), if_pos rfl]
        exact run_pda_B_stack w 0 fb (by omega)
      rw [try_productions_two (fun r => run_pda wtf (fb + 1) ('a' :: w) (r ++ ['B']))
        ['a', 'A'] ['a'] (aMatch w) (bMatch w 0) h1 h2]
      simp [aMatch]
    · have h1 : run_pda wtf (fb + 1) (x :: w) (['a', 'A'] ++ ['B']) = some false := by
        rw [List.cons_append, run_pda_term_cons wtf fb x w 'a' _ (by decide), if_neg hx]
      have h2 : run_pda wtf (fb + 1) (x :: w) (['a'] ++ ['B']) = some false := by
        rw [List.cons_append, run_pda_term_cons wtf fb x w 'a' _ (by decide), if_neg hx]
      rw [try_productions_two (fun r => run_pda wtf (fb + 1) (x :: w) (r ++ ['B']))
        ['a', 'A'] ['a'] false false h1 h2]
      simp [aMatch, hx]

/-- Evaluation of the whole search from the start stack `['S']`: the engine
computes `aMatch`, within fuel linear in the length of the word. -/
theorem run_pda_start (w : List Char) :
    ∀ f : Nat, 3 * w.length + 7 ≤ f → run_pda wtf f w ['S'] = some (aMatch w) := by
  intro f hf
  obtain ⟨fa, rfl⟩ : ∃ k, f = k + 1 := ⟨f - 1, by omega⟩
  rw [show (['S'] : List Char) = 'S' :: [] from rfl,
    run_pda_nonterm wtf fa w 'S' [] (by decide)]
  have hS : wtf 'S' = [['A', 'B']] := by decide
  rw [hS]
  have h1 : run_pda wtf fa w (['A', 'B'] ++ []) = some (aMatch w) := by
    rw [List.append_nil]
    exact run_pda_A_stack w fa (by omega)
  rw [try_productions_one (fun r => run_pda wtf fa w (r ++ [])) ['A', 'B'] (aMatch w) h1]

/-- `bMatch w j` recognizes exactly the words `b^m c^(m+j)` with `m ≥ 1`. -/
theorem bMatch_eq_true_iff :
    ∀ (w : List Char) (j : Nat),
      bMatch w j = true ↔
        ∃ m : Nat, 1 ≤ m ∧ w = List.replicate m 'b' ++ List.replicate (m + j) 'c' := by
  intro w
  induction w with
  | nil =>
    intro j
    constructor
    · intro h
      exact Bool.noConfusion h
    rintro ⟨m, hm, h⟩
    obtain ⟨mp, rfl⟩ : ∃ k, m = k + 1 := ⟨m - 1, by omega⟩
    rw [List.replicate_succ, List.cons_append] at h
    cases h
  | cons x w ih =>
    intro j
    simp only [bMatch, Bool.and_eq_true, Bool.or_eq_true, decide_eq_true_eq]
    constructor
    · rintro ⟨rfl, h | h⟩
      · obtain ⟨m, hm, rfl⟩ := (ih (j + 1)).mp h
        refine ⟨m + 1, by omega, ?_⟩
        rw [List.replicate_succ, List.cons_append]
        have harith : m + (j + 1) = m + 1 + j := by omega
        rw [harith]
      · refine ⟨1, le_refl 1, ?_⟩
        rw [h]
        have harith : 1 + j = j + 1 := by omega
        rw [harith]
        rfl
    · rintro ⟨m, hm, h⟩
      obtain ⟨mp, rfl⟩ : ∃ k, m = k + 1 := ⟨m - 1, by omega⟩
      rw [List.replicate_succ, List.cons_append] at h
      injection h with hx hw
      refine ⟨hx, ?_⟩
      cases mp with
      | zero =>
        right
        rw [hw]
        have harith : 0 + 1 + j = j + 1 := by omega
        rw [harith]
        rfl
      | succ mq =>
        left
        refine (ih (j + 1)).mpr ⟨mq + 1, by omega, ?_⟩
        rw [hw]
        have harith : mq + 1 + 1 + j = mq + 1 + (j + 1) := by omega
        rw [harith]

/-- `aMatch` recognizes exactly the words `a^n b^m c^m` with `n, m ≥ 1`. -/
theorem aMatch_eq_true_iff :
    ∀ w : List Char,
      aMatch w = true ↔
        ∃ n m : Nat, 1 ≤ n ∧ 1 ≤ m ∧
          w = List.replicate n 'a' ++ List.replicate m 'b' ++ List.replicate m 'c' := by
  intro w
  induction w with
  | nil =>
    constructor
    · intro h
      exact Bool.noConfusion h
    rintro ⟨n, m, hn, hm, h⟩
    obtain ⟨np, rfl⟩ : ∃ k, n = k + 1 := ⟨n - 1, by omega⟩
    rw [List.replicate_succ, List.cons_append, List.cons_append] at h
    cases h
  | cons x w ih =>
    simp only [aMatch, Bool.and_eq_true, Bool.or_eq_true, decide_eq_true_eq]
    constructor
    · rintro ⟨rfl, h | h⟩
      · obtain ⟨n, m, hn, hm, rfl⟩ := ih.mp h
        refine ⟨n + 1, m, by omega, hm, ?_⟩
        rw [List.replicate_succ, List.cons_append, List.cons_append]
      · obtain ⟨m, hm, rfl⟩ := (bMatch_eq_true_iff w 0).mp h
        refine ⟨1, m, le_refl 1, hm, ?_⟩
        rw [List.append_assoc]
        have harith : m + 0 = m := by omega
        rw [harith]
        rfl
    · rintro ⟨n, m, hn, hm, h⟩
      obtain ⟨np, rfl⟩ : ∃ k, n = k + 1 := ⟨n - 1, by omega⟩
      rw [List.replicate_succ, List.cons_append, List.cons_append] at h
      injection h with hx hw
      refine ⟨hx, ?_⟩
      cases np with
      | zero =>
        right
        refine (bMatch_eq_true_iff w 0).mpr ⟨m, hm, ?_⟩
        rw [hw]
        have harith : m + 0 = m := by omega
        rw [harith]
        rfl
      | succ nq =>
        left
        exact ih.mpr ⟨nq + 1, m, by omega, hm, hw⟩

/-- If every attempt before `r` answers false and the attempt on `r` answers
true, the loop answers true (declaration order with short-circuit). -/
theorem try_productions_first_true (att : List Char → Option Bool) :
    ∀ (rs1 : List (List Char)) (r : List Char) (rs2 : List (List Char)),
      (∀ r2 ∈ rs1, att r2 = some false) → att r = some true →
      try_productions att (rs1 ++ r :: rs2) = some true := by
  intro rs1
  induction rs1 with
  | nil =>
    intro r rs2 _ hr
    simp [try_productions, hr]
  | cons r0 rs ih =>
    intro r rs2 hprev hr
    have h0 : att r0 = some false := hprev r0 (by simp)
    rw [List.cons_append]
    simp only [try_productions, h0]
    exact ih r rs2 (fun r2 h2 => hprev r2 (by simp [h2])) hr

/-- Evaluation of the engine on the grammar `S -> a^n` and the word `a^n`:
the single expansion pushes all `n` symbols (there is no capacity check) and
the word is then matched and accepted. -/
theorem run_pda_gBig (n : Nat) : ∀ f : Nat, n + 2 ≤ f →
    run_pda (gBig n) f (List.replicate n 'a') ['S'] = some true := by
  intro f hf
  obtain ⟨fa, rfl⟩ : ∃ k, f = k + 1 := ⟨f - 1, by omega⟩
  rw [show (['S'] : List Char) = 'S' :: [] from rfl,
    run_pda_nonterm (gBig n) fa _ 'S' [] (by decide)]
  have hS : gBig n 'S' = [List.replicate n 'a'] := by simp [gBig]
  rw [hS]
  have h1 : run_pda (gBig n) fa (List.replicate n 'a') (List.replicate n 'a' ++ []) =
      some true := by
    rw [List.append_nil]
    have hterm : ∀ c ∈ List.replicate n 'a', isupper c = false := by
      intro c hc
      rw [List.eq_of_mem_replicate hc]
      decide
    rw [run_pda_terms (gBig n) _ hterm fa _
      (by simp only [List.length_replicate]; omega)]
    simp
  rw [try_productions_one (fun r => run_pda (gBig n) fa (List.replicate n 'a') (r ++ []))
    (List.replicate n 'a') true h1]

theorem run_pda_checked_nonterm (g : grammar) (f : Nat) (w : List Char) (t : Char)
    (s : List Char) (ht : isupper t = true) :
    run_pda_checked g (f + 1) w (t :: s) =
      try_productions
        (fun r =>
          if s.length + r.length ≤ 1024 then run_pda_checked g f w (r ++ s) else some false)
        (g t) := by
  simp [run_pda_checked, ht]

/-! The claims. -/

/-- Claim C3: with an empty derivation stack the engine answers true exactly
when the remaining word is also empty; leftover input yields the answer false
(an ordinary rejection), never an error. -/
theorem run_pda_empty_stack (g : grammar) (f : Nat) (w : List Char) :
    run_pda g (f + 1) w [] = some (decide (w = [])) :=
  run_pda_nil g f w

/-- Claim C2: with a terminal `t` on top of the stack, the engine fails on an
empty word; otherwise it recurses with `t` popped and the word advanced when
the first character equals `t`, and fails without exploring any alternative
when it does not. -/
theorem run_pda_terminal_match (g : grammar) (f : Nat) (w : List Char) (t : Char)
    (s : List Char) (ht : isupper t = false) :
    (w = [] → run_pda g (f + 1) w (t :: s) = some false)
  ∧ (∀ (x : Char) (w2 : List Char), w = x :: w2 → x = t →
      run_pda g (f + 1) w (t :: s) = run_pda g f w2 s)
  ∧ (∀ (x : Char) (w2 : List Char), w = x :: w2 → x ≠ t →
      run_pda g (f + 1) w (t :: s) = some false) := by
  refine ⟨?_, ?_, ?_⟩
  · rintro rfl
    exact run_pda_term_nil g f t s ht
  · rintro x w2 rfl rfl
    rw [run_pda_term_cons g f x w2 x s ht, if_pos rfl]
  · rintro x w2 rfl hx
    rw [run_pda_term_cons g f x w2 t s ht, if_neg hx]

theorem run_pda_terminal_match_witness :
    run_pda wtf 2 ['a'] ['a'] = run_pda wtf 1 [] [] :=
  (run_pda_terminal_match wtf 1 ['a'] 'a' [] (by decide)).2.1 'a' [] rfl rfl

/-- Claim C1: with a nonterminal `N` on top of the stack, the engine tries the
productions of `N` in declaration order, each attempt running on `r ++ s`
(the rule pushed leftmost-on-top over the untouched remaining stack) with the
same word; the first attempt answering true wins, all attempts answering
false yield false, and zero productions yield false immediately. -/
theorem run_pda_nonterminal_expansion (g : grammar) (f : Nat) (w : List Char) (N : Char)
    (s : List Char) (hN : isupper N = true) :
    (g N = [] → run_pda g (f + 1) w (N :: s) = some false)
  ∧ (∀ (rs1 : List (List Char)) (r : List Char) (rs2 : List (List Char)),
      g N = rs1 ++ r :: rs2 →
      (∀ r2 ∈ rs1, run_pda g f w (r2 ++ s) = some false) →
      run_pda g f w (r ++ s) = some true →
      run_pda g (f + 1) w (N :: s) = some true)
  ∧ ((∀ r ∈ g N, run_pda g f w (r ++ s) = some false) →
      run_pda g (f + 1) w (N :: s) = some false) := by
  refine ⟨?_, ?_, ?_⟩
  · intro h0
    rw [run_pda_nonterm g f w N s hN, h0]
    rfl
  · intro rs1 r rs2 hsplit hprev hr
    rw [run_pda_nonterm g f w N s hN, hsplit]
    exact try_productions_first_true _ rs1 r rs2 hprev hr
  · intro hall
    rw [run_pda_nonterm g f w N s hN]
    exact try_productions_all_false _ (g N) hall

theorem run_pda_nonterminal_expansion_witness :
    run_pda wtf 6 ['b', 'c'] ['B'] = some true :=
  (run_pda_nonterminal_expansion wtf 5 ['b', 'c'] 'B' [] (by decide)).2.1
    [['b', 'B', 'c']] ['b', 'c'] [] (by decide) (by decide) (by decide)

/-- Claim C10: the popped symbol is dispatched on `isupper` alone — an
uppercase ASCII letter is expanded through the grammar, every other character
is matched literally against the input — and `isupper` holds exactly on
`'A'..'Z'` (so lowercase letters, digits and punctuation are terminals). -/
theorem run_pda_case_dispatch (g : grammar) (f : Nat) (w : List Char) (t : Char)
    (s : List Char) :
    run_pda g (f + 1) w (t :: s) =
      (if isupper t then try_productions (fun r => run_pda g f w (r ++ s)) (g t)
       else
        match w with
        | [] => some false
        | x :: w2 => if x = t then run_pda g f w2 s else some false)
  ∧ (isupper t = true ↔ 'A' ≤ t ∧ t ≤ 'Z')
  ∧ isupper 'a' = false ∧ isupper 'z' = false ∧ isupper '0' = false
  ∧ isupper '9' = false ∧ isupper '(' = false ∧ isupper 'A' = true
  ∧ isupper 'Z' = true := by
  refine ⟨rfl, ?_, by decide, by decide, by decide, by decide, by decide, by decide, by decide⟩
  simp [isupper]

/-- Claim C7: the engine is a pure function of its arguments — any two
evaluations on the same grammar, word and stack that produce an answer
produce the same answer, whatever fuel each was given. -/
theorem run_pda_deterministic (g : grammar) (w s : List Char) (f1 f2 : Nat) (b1 b2 : Bool)
    (h1 : run_pda g f1 w s = some b1) (h2 : run_pda g f2 w s = some b2) : b1 = b2 :=
  run_pda_det g h1 h2

theorem run_pda_deterministic_witness : true = true :=
  run_pda_deterministic wtf ['a', 'b', 'c'] ['S'] 16 20 true true (by decide) (by decide)

/-- Claim C6: the caller's stack is unaffected by a call — the C stack is
passed by value (src/PDA.c:91), modelled by `run_pda_call` returning the
caller's stack unchanged next to the result — and no branch disturbs its
parent or its siblings: however the production list is split, the attempts of
the second part run on the very same popped stack `s`, unaffected by
whatever the attempts of the first part did. -/
theorem run_pda_stack_frame (g : grammar) (f : Nat) (w s : List Char) :
    (run_pda_call g f w s).2 = s
  ∧ (∀ (N : Char) (rs1 rs2 : List (List Char)), isupper N = true → g N = rs1 ++ rs2 →
      run_pda g (f + 1) w (N :: s) =
        match try_productions (fun r => run_pda g f w (r ++ s)) rs1 with
        | some false => try_productions (fun r => run_pda g f w (r ++ s)) rs2
        | x => x) := by
  refine ⟨rfl, ?_⟩
  intro N rs1 rs2 hN hsplit
  rw [run_pda_nonterm g f w N s hN, hsplit]
  exact try_productions_append _ rs1 rs2

theorem run_pda_stack_frame_witness :
    (run_pda_call wtf 5 ['b', 'c'] ['B']).2 = ['B']
  ∧ run_pda wtf (5 + 1) ['b', 'c'] ('B' :: []) =
      match try_productions (fun r => run_pda wtf 5 ['b', 'c'] (r ++ [])) [['b', 'B', 'c']] with
      | some false => try_productions (fun r => run_pda wtf 5 ['b', 'c'] (r ++ [])) [['b', 'c']]
      | x => x :=
  ⟨(run_pda_stack_frame wtf 5 ['b', 'c'] ['B']).1,
   (run_pda_stack_frame wtf 5 ['b', 'c'] []).2 'B' [['b', 'B', 'c']] [['b', 'c']]
     (by decide) (by decide)⟩

/-- Claim C5 (amended): the engine performs no capacity check on expansion —
a production's symbols are pushed unconditionally, so a branch whose stack
exceeds the 1024 slots of `struct stack` proceeds (and here accepts) instead
of failing; in the C source this writes past `content`, undefined behaviour
the source comment at src/PDA.c:45-48 itself points out. -/
theorem run_pda_no_capacity_check (n : Nat) (h : 1024 < n) :
    run_pda (gBig n) (n + 2) (List.replicate n 'a') ['S'] = some true :=
  run_pda_gBig n (n + 2) (le_refl _)

theorem run_pda_no_capacity_check_witness :
    run_pda (gBig 1025) 1027 (List.replicate 1025 'a') ['S'] = some true :=
  run_pda_no_capacity_check 1025 (by omega)

/-- Claim C5 as stated is false of the code: on the grammar `S -> a^1025` and
the word `a^1025`, the expansion must push 1025 symbols onto an empty stack —
beyond the 1024-slot capacity — yet the engine accepts, while the
specification's capacity-checked engine fails that branch and rejects. -/
theorem run_pda_capacity_counterexample :
    run_pda (gBig 1025) 1027 (List.replicate 1025 'a') ['S'] = some true
  ∧ run_pda_checked (gBig 1025) 1027 (List.replicate 1025 'a') ['S'] = some false := by
  constructor
  · exact run_pda_gBig 1025 1027 (by omega)
  · rw [show (1027 : Nat) = 1026 + 1 from rfl, show (['S'] : List Char) = 'S' :: [] from rfl,
      run_pda_checked_nonterm (gBig 1025) 1026 _ 'S' [] (by decide)]
    have hS : gBig 1025 'S' = [List.replicate 1025 'a'] := by simp [gBig]
    rw [hS]
    have h1 : (if ([] : List Char).length + (List.replicate 1025 'a').length ≤ 1024
        then run_pda_checked (gBig 1025) 1026 (List.replicate 1025 'a')
          (List.replicate 1025 'a' ++ [])
        else some false) = some false := by
      have hlen : ¬ (([] : List Char).length + (List.replicate 1025 'a').length ≤ 1024) := by
        simp only [List.length_nil, List.length_replicate]
        omega
      rw [if_neg hlen]
    rw [try_productions_one
      (fun r =>
        if ([] : List Char).length + r.length ≤ 1024
        then run_pda_checked (gBig 1025) 1026 (List.replicate 1025 'a') (r ++ [])
        else some false)
      (List.replicate 1025 'a') false h1]

/-- Claim C4: from the start stack `['S']` the built-in grammar accepts
exactly the words `a^n b^m c^m` with `n, m ≥ 1`; in particular it accepts
"abc", "aabbcc" and "aaabbbccc" and rejects the empty word and "abcc". -/
theorem wtf_language_characterization :
    (∀ w : List Char,
        (∃ f, run_pda wtf f w ['S'] = some true) ↔
          ∃ n m : Nat, 1 ≤ n ∧ 1 ≤ m ∧
            w = List.replicate n 'a' ++ List.replicate m 'b' ++ List.replicate m 'c')
  ∧ run_pda wtf 16 ['a', 'b', 'c'] ['S'] = some true
  ∧ run_pda wtf 25 ['a', 'a', 'b', 'b', 'c', 'c'] ['S'] = some true
  ∧ run_pda wtf 34 ['a', 'a', 'a', 'b', 'b', 'b', 'c', 'c', 'c'] ['S'] = some true
  ∧ run_pda wtf 7 [] ['S'] = some false
  ∧ run_pda wtf 19 ['a', 'b', 'c', 'c'] ['S'] = some false := by
  refine ⟨?_, ?_, ?_, ?_, ?_, ?_⟩
  · intro w
    constructor
    · rintro ⟨f, hf⟩
      have h2 := run_pda_start w (3 * w.length + 7) (le_refl _)
      have h3 : true = aMatch w := run_pda_det wtf hf h2
      exact (aMatch_eq_true_iff w).mp h3.symm
    · rintro ⟨n, m, hn, hm, rfl⟩
      refine ⟨3 * (List.replicate n 'a' ++ List.replicate m 'b' ++
        List.replicate m 'c').length + 7, ?_⟩
      rw [run_pda_start _ _ (le_refl _),
        (aMatch_eq_true_iff _).mpr ⟨n, m, hn, hm, rfl⟩]
  · rw [run_pda_start ['a', 'b', 'c'] 16 (by decide)]
    decide
  · rw [run_pda_start ['a', 'a', 'b', 'b', 'c', 'c'] 25 (by decide)]
    decide
  · rw [run_pda_start ['a', 'a', 'a', 'b', 'b', 'b', 'c', 'c', 'c'] 34 (by decide)]
    decide
  · rw [run_pda_start [] 7 (by decide)]
    decide
  · rw [run_pda_start ['a', 'b', 'c', 'c'] 19 (by decide)]
    decide

theorem wtf_language_characterization_witness :
    ∃ f, run_pda wtf f ['a', 'a', 'b', 'b', 'c', 'c'] ['S'] = some true :=
  (wtf_language_characterization.1 ['a', 'a', 'b', 'b', 'c', 'c']).mpr
    ⟨2, 2, by decide, by decide, by decide⟩

/-- Claim C9: on the built-in grammar the search from `['S']` terminates on
every finite word, within a recursion depth bounded by a function of the
input length (fuel `3 * length + 7` always yields an answer). -/
theorem run_pda_wtf_terminates (w : List Char) :
    (run_pda wtf (3 * w.length + 7) w ['S']).isSome = true := by
  rw [run_pda_start w (3 * w.length + 7) (le_refl _)]
  rfl

/-- Claim C8: the exit code of `main` distinguishes the three outcomes
pairwise — 0 (`EXIT_SUCCESS`) for an accepted word, 1 (`EXIT_FAILURE`) for a
rejected word, and the distinct non-zero code -1 when the argument count is
not exactly one, decided before any word is examined. -/
theorem main_exit_codes :
    (∀ w : List Char, (∃ f, run_pda wtf f w ['S'] = some true) → main_ret [w] = 0)
  ∧ (∀ w : List Char, (∃ f, run_pda wtf f w ['S'] = some false) → main_ret [w] = 1)
  ∧ (∀ args : List (List Char), args.length ≠ 1 → main_ret args = -1)
  ∧ (0 : Int) ≠ 1 ∧ (0 : Int) ≠ -1 ∧ (1 : Int) ≠ -1 := by
  refine ⟨?_, ?_, ?_, by decide, by decide, by decide⟩
  · rintro w ⟨f, hf⟩
    have h2 := run_pda_start w (3 * w.length + 7) (le_refl _)
    have h3 : true = aMatch w := run_pda_det wtf hf h2
    simp only [main_ret]
    rw [h2, ← h3]
  · rintro w ⟨f, hf⟩
    have h2 := run_pda_start w (3 * w.length + 7) (le_refl _)
    have h3 : false = aMatch w := run_pda_det wtf hf h2
    simp only [main_ret]
    rw [h2, ← h3]
  · intro args h
    rcases args with _ | ⟨a, _ | ⟨b, rest⟩⟩
    · rfl
    · exact absurd rfl h
    · rfl

theorem main_exit_codes_witness :
    main_ret [['a', 'b', 'c']] = 0 ∧ main_ret [['a', 'b']] = 1 ∧ main_ret [] = -1 :=
  ⟨main_exit_codes.1 ['a', 'b', 'c'] ⟨16, by decide⟩,
   main_exit_codes.2.1 ['a', 'b'] ⟨13, by decide⟩,
   main_exit_codes.2.2.1 [] (by decide)⟩
